import Mathlib

/-!
Verification development for the kanban status updater plugin
(src/main.ts).  The core logic is embedded shallowly: the board parser,
the column policy, the sync engine and the placement resolver become
executable Lean functions over an explicit vault state; host collaborators
(link resolution, fallible writes and moves) are parameters.
-/

namespace KSU

/-- Whitespace predicate of the JavaScript trim for the ASCII range. -/
def jsWs (c : Char) : Bool :=
  c = ' ' || c = '\t' || c = '\n' || c = '\r' || c = '\x0b' || c = '\x0c'

/-- Embedding of the trim applied to the heading capture (src/main.ts line 89):
remove leading and trailing whitespace characters. -/
def trimChars (cs : List Char) : List Char :=
  ((cs.dropWhile jsWs).reverse.dropWhile jsWs).reverse

/-- Split of a character list on a separator character, with the semantics of
the JavaScript split on a one-character string. -/
def splitOnSep (sep : Char) : List Char → List (List Char)
  | [] => [[]]
  | c :: rest =>
    match splitOnSep sep rest with
    | [] => [[c]]
    | h :: t => if c = sep then [] :: h :: t else (c :: h) :: t

/-- Embedding of the split of the board text on the newline character
(src/main.ts line 87). -/
def splitLines (cs : List Char) : List (List Char) :=
  splitOnSep '\n' cs

/-- Line-terminator characters: the JavaScript regex dot does not match these,
and without the multiline flag the end anchor only matches the end of the
string, so a heading line may not contain any of them after the marker. -/
def jsLineTerm (c : Char) : Bool :=
  c = '\r' || c = '\u2028' || c = '\u2029'

/-- Embedding of the anchored heading match followed by the trim of its capture
(src/main.ts lines 88-91): two hash marks, a space, then one or more characters
(none a line terminator) up to the end of the line. -/
def headingText? (l : List Char) : Option (List Char) :=
  match l with
  | '#' :: '#' :: ' ' :: rest =>
    if !rest.isEmpty && rest.all (fun c => !jsLineTerm c) then some (trimChars rest)
    else none
  | _ => none

/-- Helper for the link search: a match attempt starting right after an opening
double bracket.  The character class excludes the closing bracket, so the
capture runs exactly to the first closing bracket, which must be doubled. -/
def takeLink (cs : List Char) : Option (List Char) :=
  let pre := cs.takeWhile (fun c => c ≠ ']')
  if pre.isEmpty then none
  else
    match cs.drop pre.length with
    | ']' :: ']' :: _ => some pre
    | _ => none

/-- Embedding of the link match on one line (src/main.ts line 95): leftmost
match of an opening double bracket, one or more characters other than a closing
bracket, then a closing double bracket; returns the capture. -/
def findLink : List Char → Option (List Char)
  | [] => none
  | c :: rest =>
    if c = '[' then
      match rest with
      | [] => none
      | c2 :: rest2 =>
        if c2 = '[' then
          match takeLink rest2 with
          | some cap => some cap
          | none => findLink rest
        else findLink rest
    else findLink rest

/-- One parsed pair: a link target together with the column it sits under. -/
structure Pair where
  linkPath : String
  columnName : String
  deriving DecidableEq, Repr

/-- Embedding of the line loop of parseBoardContent (src/main.ts lines 84-100).
None models the JavaScript null for currentColumn; the emptiness test mirrors
the falsiness of the empty string in the guard on currentColumn. -/
def parseLines (currentColumn : Option (List Char)) : List (List Char) → List Pair
  | [] => []
  | line :: rest =>
    match headingText? line with
    | some h => parseLines (some h) rest
    | none =>
      match currentColumn with
      | some c =>
        if c.isEmpty then parseLines currentColumn rest
        else
          match findLink line with
          | some cap => ⟨String.mk cap, String.mk c⟩ :: parseLines currentColumn rest
          | none => parseLines currentColumn rest
      | none => parseLines currentColumn rest

/-- Embedding of parseBoardContent (src/main.ts lines 83-101). -/
def parseBoardContent (content : String) : List Pair :=
  parseLines none (splitLines content.toList)

/-- First reserved quadrant column name, with the code points stored literally
in the bytes of src/main.ts line 17. -/
def quadrantKey1 : String := "âšª Eliminate (NI & NU)"

/-- Second reserved quadrant column name (src/main.ts line 18). -/
def quadrantKey2 : String := "ðŸŸ  Delegate (NI & U)"

/-- Third reserved quadrant column name (src/main.ts line 19). -/
def quadrantKey3 : String := "ðŸŸ¡ Schedule (I & NU)"

/-- Fourth reserved quadrant column name (src/main.ts line 20). -/
def quadrantKey4 : String := "ðŸ”´ Do First (I & U)"

/-- Embedding of the QUADRANT_MAP record (src/main.ts lines 16-21) as a lookup
from a column name to the urgent and important flags. -/
def QUADRANT_MAP (c : String) : Option (Bool × Bool) :=
  if c = quadrantKey1 then some (false, false)
  else if c = quadrantKey2 then some (true, false)
  else if c = quadrantKey3 then some (false, true)
  else if c = quadrantKey4 then some (true, true)
  else none

/-- Embedding of ARCHIVE_STATUSES (src/main.ts line 23). -/
def ARCHIVE_STATUSES : List String := ["done", "archive"]

/-- Embedding of the status computation of updateNote (src/main.ts line 109). -/
def statusOf (columnName : String) : String :=
  if (QUADRANT_MAP columnName).isSome then "backlog" else columnName

/-- JavaScript values that occur in a frontmatter record here: null (also the
result of a lookup yielding undefined), booleans, strings and numbers; strict
inequality distinguishes the constructors. -/
inductive JValue where
  | vNull : JValue
  | vBool : Bool → JValue
  | vStr : String → JValue
  | vNum : Int → JValue
  deriving DecidableEq, Repr

/-- One note file: its frontmatter record (None marks an absent key), the path
of its parent folder and its file name. -/
structure ItemState where
  fm : String → Option JValue
  parent : String
  name : String

/-- Collaborators of the sync engine: the configured status property name, link
resolution (None when a link target does not resolve), and fault switches
saying whether the frontmatter write or the rename throws for a given item. -/
structure Env where
  statusPropertyName : String
  resolveLink : String → Option Nat
  writeFails : Nat → Bool
  moveFails : Nat → Bool

/-- Vault state: every item's state, the existing folders, and the plugin's
suppression flag isUpdating. -/
structure SyncState where
  items : Nat → ItemState
  folders : List String
  isUpdating : Bool

/-- Observable effects of a sync run. -/
inductive Ev where
  | write : Nat → String → Option (Bool × Bool) → Ev
  | move : Nat → String → Ev
  | createFolder : String → Ev
  | err : String → Ev
  deriving DecidableEq, Repr

/-- Embedding of a frontmatter lookup with the nullish coalescing to null
(src/main.ts lines 111-113). -/
def fmRead (it : ItemState) (k : String) : JValue :=
  (it.fm k).getD JValue.vNull

/-- Embedding of the needsUpdate computation (src/main.ts lines 116-120). -/
def needsUpdate (env : Env) (it : ItemState) (columnName : String) : Bool :=
  let base := fmRead it env.statusPropertyName != JValue.vStr (statusOf columnName)
  match QUADRANT_MAP columnName with
  | some (u, i) =>
    base || fmRead it "urgent" != JValue.vBool u || fmRead it "important" != JValue.vBool i
  | none => base

/-- Embedding of the processFrontMatter callback (src/main.ts lines 124-130):
set the status property, then the urgent and important flags when the column is
a quadrant, leaving every other key unchanged.  Assignments happen in source
order, so a later assignment to the same key overwrites an earlier one. -/
def applyFm (env : Env) (columnName : String) (fm : String → Option JValue) :
    String → Option JValue :=
  let fm1 := fun k =>
    if k = env.statusPropertyName then some (JValue.vStr (statusOf columnName)) else fm k
  match QUADRANT_MAP columnName with
  | some (u, i) =>
    fun k =>
      if k = "important" then some (JValue.vBool i)
      else if k = "urgent" then some (JValue.vBool u)
      else fm1 k
  | none => fm1

/-- Embedding of the endsWith test on paths via character lists. -/
def endsWithS (s suf : String) : Bool :=
  suf.toList.isSuffixOf s.toList

/-- Embedding of the replacement of the anchored archive-suffix pattern by the
empty string (src/main.ts line 175). -/
def stripArchiveSuffix (s : String) : String :=
  if endsWithS s "/archive" then String.mk (s.toList.take (s.toList.length - 8)) else s

/-- The guard of archiveNote (src/main.ts line 152): the parent folder is
directly an active tasks area. -/
def isActiveTasks (p : String) : Bool :=
  endsWithS p "/tasks" || p == "tasks"

/-- Result of one fallible step: the state reached (effects before a throw
persist), the events emitted, and the uncaught error if one was thrown. -/
structure StepRes where
  st : SyncState
  evs : List Ev
  thrown : Option String

/-- Replace one item's state. -/
def setItem (st : SyncState) (i : Nat) (it : ItemState) : SyncState :=
  { st with items := fun j => if j = i then it else st.items j }

/-- Embedding of archiveNote (src/main.ts lines 148-169).  Folder creation is
modelled as infallible; the rename throws when the move fault switch for the
item is set.  The falsiness guard on the parent path is kept as an emptiness
test. -/
def archiveNote (env : Env) (st : SyncState) (i : Nat) : StepRes :=
  let it := st.items i
  let parentDir := it.parent
  if parentDir = "" then ⟨st, [], none⟩
  else if !(endsWithS parentDir "/tasks" || parentDir == "tasks") then ⟨st, [], none⟩
  else
    let archivePath := parentDir ++ "/archive"
    let stepA :=
      if st.folders.contains archivePath then (st, ([] : List Ev))
      else ({ st with folders := archivePath :: st.folders }, [Ev.createFolder archivePath])
    if env.moveFails i then ⟨stepA.1, stepA.2, some "rename failed"⟩
    else
      ⟨setItem stepA.1 i { it with parent := archivePath },
       stepA.2 ++ [Ev.move i archivePath], none⟩

/-- Embedding of unarchiveNote (src/main.ts lines 171-183). -/
def unarchiveNote (env : Env) (st : SyncState) (i : Nat) : StepRes :=
  let it := st.items i
  let parentDir := it.parent
  if parentDir = "" || !endsWithS parentDir "/tasks/archive" then ⟨st, [], none⟩
  else
    let tasksPath := stripArchiveSuffix parentDir
    if env.moveFails i then ⟨st, [], some "rename failed"⟩
    else ⟨setItem st i { it with parent := tasksPath }, [Ev.move i tasksPath], none⟩

/-- Embedding of the placement dispatch of updateNote (src/main.ts lines
136-140): archive on an archival status, otherwise restore. -/
def placeNote (env : Env) (st : SyncState) (i : Nat) (status : String) : StepRes :=
  if ARCHIVE_STATUSES.contains status then archiveNote env st i
  else unarchiveNote env st i

/-- Embedding of the try body of updateNote (src/main.ts lines 104-141). -/
def updateNoteBody (env : Env) (st : SyncState) (notePath columnName : String) : StepRes :=
  match env.resolveLink notePath with
  | none => ⟨st, [], none⟩
  | some i =>
    let it := st.items i
    if !needsUpdate env it columnName then ⟨st, [], none⟩
    else if env.writeFails i then ⟨st, [], some "write failed"⟩
    else
      let st1 := setItem st i { it with fm := applyFm env columnName it.fm }
      let wEv := Ev.write i (statusOf columnName) (QUADRANT_MAP columnName)
      let r := placeNote env st1 i (statusOf columnName)
      ⟨r.st, wEv :: r.evs, r.thrown⟩

/-- Embedding of updateNote with its surrounding catch (src/main.ts lines
103-146): a thrown error is logged as an event and never propagates. -/
def updateNote (env : Env) (st : SyncState) (notePath columnName : String) :
    SyncState × List Ev :=
  let r := updateNoteBody env st notePath columnName
  match r.thrown with
  | some e => (r.st, r.evs ++ [Ev.err e])
  | none => (r.st, r.evs)

/-- Embedding of the update loop of syncBoard (src/main.ts lines 77-79). -/
def runPairs (env : Env) (st : SyncState) : List Pair → SyncState × List Ev
  | [] => (st, [])
  | p :: rest =>
    let r1 := updateNote env st p.linkPath p.columnName
    let r2 := runPairs env r1.1 rest
    (r2.1, r1.2 ++ r2.2)

/-- Embedding of syncBoard (src/main.ts lines 71-81): parse, early return on an
empty parse, set the suppression flag, process every pair, clear the flag. -/
def syncBoard (env : Env) (st : SyncState) (content : String) : SyncState × List Ev :=
  let updates := parseBoardContent content
  if updates.length = 0 then (st, [])
  else
    let r := runPairs env { st with isUpdating := true } updates
    ({ r.1 with isUpdating := false }, r.2)

/-- The state before each updateNote call of a run. -/
def runStates (env : Env) (st : SyncState) : List Pair → List SyncState
  | [] => []
  | p :: rest => st :: runStates env (updateNote env st p.linkPath p.columnName).1 rest

/-- The intermediate states of one syncBoard run. -/
def syncBoardStates (env : Env) (st : SyncState) (content : String) : List SyncState :=
  let updates := parseBoardContent content
  if updates.length = 0 then []
  else runStates env { st with isUpdating := true } updates

/-- Embedding of the modify handler (src/main.ts lines 34-37): a modify event is
ignored when the suppression flag is set or the path is not an indexed board;
otherwise syncBoard runs on the board's content. -/
def onModify (env : Env) (boardPaths : List String) (st : SyncState)
    (path content : String) : SyncState × List Ev :=
  if st.isUpdating || !boardPaths.contains path then (st, [])
  else syncBoard env st content

/-- Does an event list contain a metadata write. -/
def hasWrite (evs : List Ev) : Bool :=
  evs.any fun e => match e with | Ev.write _ _ _ => true | _ => false

/-- Does an event list contain a file move. -/
def hasMove (evs : List Ev) : Bool :=
  evs.any fun e => match e with | Ev.move _ _ => true | _ => false

/-- Text of the nearest heading line strictly before index j, seeded with acc
for the headings already seen; used to state the parser claim independently of
the parser's loop. -/
def nearestFrom (acc : Option (List Char)) : List (List Char) → Nat → Option (List Char)
  | _, 0 => acc
  | [], _ + 1 => acc
  | l :: rest, j + 1 =>
    nearestFrom (match headingText? l with | some h => some h | none => acc) rest j

/-- The at-most-one pair that line j contributes: its first link, labelled with
the nearest preceding heading text, provided that text exists, is nonempty and
the line itself is not a heading. -/
def emitAt (acc : Option (List Char)) (lines : List (List Char)) (j : Nat) : Option Pair :=
  match nearestFrom acc lines j with
  | none => none
  | some c =>
    if c.isEmpty then none
    else if (headingText? (lines.getD j [])).isSome then none
    else
      match findLink (lines.getD j []) with
      | some cap => some ⟨String.mk cap, String.mk c⟩
      | none => none

/-- Line-indexed restatement of the parser output. -/
def specEmit (acc : Option (List Char)) (lines : List (List Char)) : List Pair :=
  (List.range lines.length).filterMap (emitAt acc lines)

/-- Number of link-bearing lines. -/
def linkLineCount (lines : List (List Char)) : Nat :=
  (lines.filter (fun l => (findLink l).isSome)).length

/-- Is the path under some folder named tasks: one of its slash-separated
segments is the word tasks. -/
def underTasksB (p : String) : Bool :=
  (splitOnSep '/' p.toList).contains "tasks".toList

/-- A concrete environment for witnesses: the link x resolves to item 0 and
nothing throws. -/
def envC : Env :=
  { statusPropertyName := "status"
    resolveLink := fun s => if s = "x" then some 0 else none
    writeFails := fun _ => false
    moveFails := fun _ => false }

/-- The same environment with a failing rename. -/
def envMoveFail : Env :=
  { envC with moveFails := fun _ => true }

/-- A concrete item with empty frontmatter in a folder unrelated to tasks. -/
def itemPlain : ItemState :=
  { fm := fun _ => none, parent := "notes", name := "x.md" }

/-- A concrete vault whose every item is itemPlain. -/
def stPlain : SyncState :=
  { items := fun _ => itemPlain, folders := [], isUpdating := false }

/-- A concrete vault whose item sits directly in the root-level tasks folder. -/
def stTasks : SyncState :=
  { items := fun _ => { itemPlain with parent := "tasks" },
    folders := [], isUpdating := false }

/-- A concrete vault whose item sits in the archive of the root-level tasks
folder. -/
def stRootArchive : SyncState :=
  { items := fun _ => { itemPlain with parent := "tasks/archive" },
    folders := ["tasks/archive"], isUpdating := false }

/-- A board that links the same note under two different columns. -/
def boardDup : String := "## a\n[[x]]\n## b\n[[x]]"

/-- A board with a single column and a single link. -/
def boardOne : String := "## a\n[[x]]"

/-- One pair of a parse is settled in a state when its link does not resolve,
or its item's write would throw, or no update is needed for it. -/
def settled (env : Env) (st : SyncState) (p : Pair) : Prop :=
  ∀ i, env.resolveLink p.linkPath = some i →
    env.writeFails i = true ∨ needsUpdate env (st.items i) p.columnName = false

/-- Two column names with the same target state. -/
def sameTarget (c1 c2 : String) : Prop :=
  statusOf c1 = statusOf c2 ∧ QUADRANT_MAP c1 = QUADRANT_MAP c2

/-!
Theorems.  First structural lemmas about the embedded operations, then one
theorem per claim.
-/

theorem hasWrite_append (a b : List Ev) : hasWrite (a ++ b) = (hasWrite a || hasWrite b) := by
  simp [hasWrite, List.any_append]

theorem hasMove_append (a b : List Ev) : hasMove (a ++ b) = (hasMove a || hasMove b) := by
  simp [hasMove, List.any_append]

theorem updateNote_of_unresolved {env : Env} {st : SyncState} {notePath columnName : String}
    (hres : env.resolveLink notePath = none) :
    updateNote env st notePath columnName = (st, []) := by
  simp [updateNote, updateNoteBody, hres]

theorem updateNote_of_noUpdate {env : Env} {st : SyncState} {notePath columnName : String}
    {i : Nat} (hres : env.resolveLink notePath = some i)
    (hn : needsUpdate env (st.items i) columnName = false) :
    updateNote env st notePath columnName = (st, []) := by
  simp [updateNote, updateNoteBody, hres, hn]

theorem updateNote_of_writeFail {env : Env} {st : SyncState} {notePath columnName : String}
    {i : Nat} (hres : env.resolveLink notePath = some i)
    (hn : needsUpdate env (st.items i) columnName = true)
    (hw : env.writeFails i = true) :
    updateNote env st notePath columnName = (st, [Ev.err "write failed"]) := by
  simp [updateNote, updateNoteBody, hres, hn, hw]

theorem updateNote_of_write {env : Env} {st : SyncState} {notePath columnName : String}
    {i : Nat} (hres : env.resolveLink notePath = some i)
    (hn : needsUpdate env (st.items i) columnName = true)
    (hw : env.writeFails i = false) :
    updateNote env st notePath columnName =
      (let r := placeNote env
          (setItem st i { st.items i with fm := applyFm env columnName (st.items i).fm })
          i (statusOf columnName)
       (r.st, Ev.write i (statusOf columnName) (QUADRANT_MAP columnName) ::
          (r.evs ++ (match r.thrown with | some e => [Ev.err e] | none => [])))) := by
  simp only [updateNote, updateNoteBody, hres, hn, hw, Bool.not_true, Bool.false_eq_true,
    if_false, if_true]
  cases (placeNote env
      (setItem st i { st.items i with fm := applyFm env columnName (st.items i).fm })
      i (statusOf columnName)).thrown <;> simp

theorem archiveNote_evs_noWrite (env : Env) (st : SyncState) (i : Nat) :
    hasWrite (archiveNote env st i).evs = false := by
  unfold archiveNote
  dsimp only
  split_ifs <;> simp [hasWrite]

theorem unarchiveNote_evs_noWrite (env : Env) (st : SyncState) (i : Nat) :
    hasWrite (unarchiveNote env st i).evs = false := by
  unfold unarchiveNote
  dsimp only
  split_ifs <;> simp [hasWrite]

theorem placeNote_evs_noWrite (env : Env) (st : SyncState) (i : Nat) (s : String) :
    hasWrite (placeNote env st i s).evs = false := by
  unfold placeNote
  split_ifs
  · exact archiveNote_evs_noWrite env st i
  · exact unarchiveNote_evs_noWrite env st i

theorem archiveNote_fm (env : Env) (st : SyncState) (i : Nat) (j : Nat) :
    ((archiveNote env st i).st.items j).fm = ((st.items j).fm) := by
  unfold archiveNote setItem
  dsimp only
  split_ifs <;> simp <;> split <;> simp_all

theorem unarchiveNote_fm (env : Env) (st : SyncState) (i : Nat) (j : Nat) :
    ((unarchiveNote env st i).st.items j).fm = ((st.items j).fm) := by
  unfold unarchiveNote setItem
  dsimp only
  split_ifs <;> simp <;> split <;> simp_all

theorem placeNote_fm (env : Env) (st : SyncState) (i : Nat) (s : String) (j : Nat) :
    ((placeNote env st i s).st.items j).fm = ((st.items j).fm) := by
  unfold placeNote
  split_ifs
  · exact archiveNote_fm env st i j
  · exact unarchiveNote_fm env st i j

theorem archiveNote_isUpdating (env : Env) (st : SyncState) (i : Nat) :
    (archiveNote env st i).st.isUpdating = st.isUpdating := by
  unfold archiveNote setItem
  dsimp only
  split_ifs <;> simp

theorem unarchiveNote_isUpdating (env : Env) (st : SyncState) (i : Nat) :
    (unarchiveNote env st i).st.isUpdating = st.isUpdating := by
  unfold unarchiveNote setItem
  dsimp only
  split_ifs <;> simp

theorem placeNote_isUpdating (env : Env) (st : SyncState) (i : Nat) (s : String) :
    (placeNote env st i s).st.isUpdating = st.isUpdating := by
  unfold placeNote
  split_ifs
  · exact archiveNote_isUpdating env st i
  · exact unarchiveNote_isUpdating env st i

/-- C2: the column policy is the fixed table.  Each of the four reserved
quadrant column names resolves to status backlog with the tabulated urgent and
important flags; every other column name resolves to itself as the status with
no flags in the target. -/
theorem C2_column_policy :
    (QUADRANT_MAP quadrantKey1 = some (false, false) ∧ statusOf quadrantKey1 = "backlog") ∧
    (QUADRANT_MAP quadrantKey2 = some (true, false) ∧ statusOf quadrantKey2 = "backlog") ∧
    (QUADRANT_MAP quadrantKey3 = some (false, true) ∧ statusOf quadrantKey3 = "backlog") ∧
    (QUADRANT_MAP quadrantKey4 = some (true, true) ∧ statusOf quadrantKey4 = "backlog") ∧
    (∀ c : String, c ≠ quadrantKey1 → c ≠ quadrantKey2 → c ≠ quadrantKey3 →
      c ≠ quadrantKey4 → QUADRANT_MAP c = none ∧ statusOf c = c) := by
  refine ⟨by decide, by decide, by decide, by decide, ?_⟩
  intro c h1 h2 h3 h4
  have hq : QUADRANT_MAP c = none := by
    unfold QUADRANT_MAP
    rw [if_neg h1, if_neg h2, if_neg h3, if_neg h4]
  exact ⟨hq, by simp [statusOf, hq]⟩

/-- Witness for C2 at the concrete non-quadrant column in-progress. -/
theorem C2_column_policy_witness :
    QUADRANT_MAP "in-progress" = none ∧ statusOf "in-progress" = "in-progress" :=
  C2_column_policy.2.2.2.2 "in-progress" (by decide) (by decide) (by decide) (by decide)

/-- C3 exhibits a code bug: a note whose parent folder is the archive of the
ROOT-LEVEL tasks folder is not moved on a non-archival status, because the
restore guard only accepts parents that strictly end in slash tasks slash
archive, while the archive guard does treat the root-level tasks folder as
active.  Concretely, syncing the note at tasks/archive/x.md under the column
in-progress writes the status but leaves the file in place, whereas the path
convention of the spec moves it to tasks/x.md; a note archived from the
root-level tasks folder (second half) can therefore never be restored. -/
theorem C3_root_archive_never_restored :
    ((updateNote envC stRootArchive "x" "in-progress").2 =
        [Ev.write 0 "in-progress" none] ∧
      ((updateNote envC stRootArchive "x" "in-progress").1.items 0).parent =
        "tasks/archive") ∧
    (updateNote envC stTasks "x" "done").2 =
      [Ev.write 0 "done" none, Ev.createFolder "tasks/archive", Ev.move 0 "tasks/archive"] := by
  refine ⟨⟨by decide, by decide⟩, by decide⟩

/-- C4: for a resolvable pair with a non-throwing metadata write, a write is
performed exactly when needsUpdate holds, and when it does not hold the pair is
skipped with no state change and no event at all, in particular no placement
call. -/
theorem C4_write_iff_needsUpdate (env : Env) (st : SyncState)
    (notePath columnName : String) (i : Nat)
    (hres : env.resolveLink notePath = some i) (hw : env.writeFails i = false) :
    (hasWrite (updateNote env st notePath columnName).2 =
      needsUpdate env (st.items i) columnName) ∧
    (needsUpdate env (st.items i) columnName = false →
      updateNote env st notePath columnName = (st, [])) := by
  constructor
  · by_cases hn : needsUpdate env (st.items i) columnName
    · rw [updateNote_of_write hres hn hw, hn]
      simp [hasWrite]
    · have hn' : needsUpdate env (st.items i) columnName = false := by
        simpa using hn
      rw [updateNote_of_noUpdate hres hn', hn']
      simp [hasWrite]
  · intro hn
    exact updateNote_of_noUpdate hres hn

/-- Witness for C4: the concrete item with empty frontmatter under column a
needs an update and gets a write; under its own current status it would not. -/
theorem C4_write_iff_needsUpdate_witness :
    envC.resolveLink "x" = some 0 ∧ envC.writeFails 0 = false ∧
    (hasWrite (updateNote envC stPlain "x" "a").2 =
      needsUpdate envC (stPlain.items 0) "a") :=
  ⟨by decide, by decide,
    (C4_write_iff_needsUpdate envC stPlain "x" "a" 0 (by decide) (by decide)).1⟩


theorem applyFm_frame (env : Env) (columnName : String) (fm : String → Option JValue)
    (key : String) (hkey : key ≠ env.statusPropertyName)
    (hq : (QUADRANT_MAP columnName).isSome = true → key ≠ "urgent" ∧ key ≠ "important") :
    applyFm env columnName fm key = fm key := by
  unfold applyFm
  cases hQ : QUADRANT_MAP columnName with
  | none => simp [hkey]
  | some p =>
    obtain ⟨hu, hi⟩ := hq (by simp [hQ])
    cases p
    simp [hkey, hu, hi]

theorem setItem_items_fm (st : SyncState) (i : Nat) (it : ItemState) (j : Nat) :
    ((setItem st i it).items j) = if j = i then it else st.items j := by
  unfold setItem
  rfl

/-- C8: a metadata write changes only the configured status property, and the
urgent and important keys only when the column is a quadrant; every other
frontmatter field of every item keeps its previous value, and for a
non-quadrant column urgent and important are untouched. -/
theorem C8_frame (env : Env) (st : SyncState) (notePath columnName : String) (i : Nat)
    (key : String) (hres : env.resolveLink notePath = some i)
    (hkey : key ≠ env.statusPropertyName)
    (hq : (QUADRANT_MAP columnName).isSome = true → key ≠ "urgent" ∧ key ≠ "important") :
    ∀ j, ((updateNote env st notePath columnName).1.items j).fm key = (st.items j).fm key := by
  intro j
  cases hn : needsUpdate env (st.items i) columnName with
  | false => rw [updateNote_of_noUpdate hres hn]
  | true =>
    cases hw : env.writeFails i with
    | true => rw [updateNote_of_writeFail hres hn hw]
    | false =>
      rw [updateNote_of_write hres hn hw]
      show ((placeNote env
          (setItem st i { st.items i with fm := applyFm env columnName (st.items i).fm })
          i (statusOf columnName)).st.items j).fm key = (st.items j).fm key
      rw [congrFun (placeNote_fm env
        (setItem st i { st.items i with fm := applyFm env columnName (st.items i).fm })
        i (statusOf columnName) j) key]
      rw [setItem_items_fm]
      by_cases hj : j = i
      · simp only [hj, if_pos rfl]
        exact applyFm_frame env columnName (st.items i).fm key hkey hq
      · simp [hj]

/-- Witness for C8 at a concrete non-quadrant column and an unrelated key. -/
theorem C8_frame_witness :
    envC.resolveLink "x" = some 0 ∧ "other" ≠ envC.statusPropertyName ∧
    ((updateNote envC stPlain "x" "a").1.items 0).fm "other" = (stPlain.items 0).fm "other" :=
  ⟨by decide, by decide,
    C8_frame envC stPlain "x" "a" 0 "other" (by decide) (by decide) (by decide) 0⟩

theorem updateNote_isUpdating (env : Env) (st : SyncState) (notePath columnName : String) :
    (updateNote env st notePath columnName).1.isUpdating = st.isUpdating := by
  cases hres : env.resolveLink notePath with
  | none => rw [updateNote_of_unresolved hres]
  | some i =>
    cases hn : needsUpdate env (st.items i) columnName with
    | false => rw [updateNote_of_noUpdate hres hn]
    | true =>
      cases hw : env.writeFails i with
      | true => rw [updateNote_of_writeFail hres hn hw]
      | false =>
        rw [updateNote_of_write hres hn hw]
        show (placeNote env
            (setItem st i { st.items i with fm := applyFm env columnName (st.items i).fm })
            i (statusOf columnName)).st.isUpdating = st.isUpdating
        rw [placeNote_isUpdating]
        rfl

theorem runStates_isUpdating (env : Env) :
    ∀ (l : List Pair) (st : SyncState), st.isUpdating = true →
      ∀ s ∈ runStates env st l, s.isUpdating = true := by
  intro l
  induction l with
  | nil => intro st _ s hs; simp [runStates] at hs
  | cons p rest ih =>
    intro st hst s hs
    rw [runStates] at hs
    rcases List.mem_cons.mp hs with h | h
    · rw [h]; exact hst
    · exact ih _ (by rw [updateNote_isUpdating]; exact hst) s h

/-- C9: while a syncBoard run is in progress the suppression flag is set, so a
modify event for any board path observed at any intermediate state of the run
triggers nothing, for every fault configuration; and after the run the flag is
clear again, also on partial failure. -/
theorem C9_suppression (env : Env) (st : SyncState) (content : String)
    (h : st.isUpdating = false) :
    (∀ s ∈ syncBoardStates env st content, s.isUpdating = true ∧
      ∀ (boardPaths : List String) (path c2 : String),
        onModify env boardPaths s path c2 = (s, [])) ∧
    (syncBoard env st content).1.isUpdating = false := by
  constructor
  · intro s hs
    have hsu : s.isUpdating = true := by
      unfold syncBoardStates at hs
      by_cases hlen : (parseBoardContent content).length = 0
      · simp [hlen] at hs
      · rw [if_neg hlen] at hs
        exact runStates_isUpdating env _ _ rfl s hs
    refine ⟨hsu, fun bp path c2 => ?_⟩
    unfold onModify
    rw [hsu]
    simp
  · unfold syncBoard
    by_cases hlen : (parseBoardContent content).length = 0
    · simp only [hlen, if_pos rfl]
      exact h
    · simp only [if_neg hlen]

/-- Witness for C9 on a concrete board with one pair. -/
theorem C9_suppression_witness :
    stPlain.isUpdating = false ∧
    (∀ s ∈ syncBoardStates envC stPlain boardOne, s.isUpdating = true) ∧
    (syncBoard envC stPlain boardOne).1.isUpdating = false :=
  ⟨rfl, fun s hs => ((C9_suppression envC stPlain boardOne rfl).1 s hs).1,
    (C9_suppression envC stPlain boardOne rfl).2⟩



theorem splitOnSep_ne_nil (sep : Char) : ∀ cs : List Char, splitOnSep sep cs ≠ [] := by
  intro cs
  cases cs with
  | nil => simp [splitOnSep]
  | cons c rest =>
    unfold splitOnSep
    cases h : splitOnSep sep rest with
    | nil => simp
    | cons a t => by_cases hc : c = sep <;> simp [hc]

theorem splitOnSep_cons_eq (sep c : Char) (rest : List Char) (h : List Char)
    (t : List (List Char)) (hh : splitOnSep sep rest = h :: t) :
    splitOnSep sep (c :: rest) = if c = sep then [] :: h :: t else (c :: h) :: t := by
  unfold splitOnSep
  rw [hh]

theorem splitOnSep_append (sep : Char) :
    ∀ a b : List Char, splitOnSep sep (a ++ sep :: b) = splitOnSep sep a ++ splitOnSep sep b := by
  intro a b
  induction a with
  | nil =>
    obtain ⟨h, t, hh⟩ := List.exists_cons_of_ne_nil (splitOnSep_ne_nil sep b)
    rw [List.nil_append, splitOnSep_cons_eq sep sep b h t hh, if_pos rfl]
    simp [splitOnSep, hh]
  | cons x a2 ih =>
    obtain ⟨h, t, hh⟩ := List.exists_cons_of_ne_nil (splitOnSep_ne_nil sep a2)
    have hih : splitOnSep sep (a2 ++ sep :: b) = (h :: t) ++ splitOnSep sep b := by
      rw [ih, hh]
    rw [List.cons_append,
      splitOnSep_cons_eq sep x (a2 ++ sep :: b) h (t ++ splitOnSep sep b) (by simpa using hih),
      splitOnSep_cons_eq sep x a2 h t hh]
    by_cases hx : x = sep <;> simp [hx]

theorem underTasksB_of_endsWith_tasks {p : String} (h : endsWithS p "/tasks" = true) :
    underTasksB p = true := by
  unfold endsWithS at h
  obtain ⟨pre, hpre⟩ := (List.isSuffixOf_iff_suffix.mp h)
  unfold underTasksB
  rw [List.elem_iff]
  have hdec : "/tasks".toList = '/' :: "tasks".toList := by decide
  rw [← hpre, hdec, splitOnSep_append]
  have : splitOnSep '/' "tasks".toList = ["tasks".toList] := by decide
  rw [this]
  exact List.mem_append_right _ (List.mem_singleton.mpr rfl)

theorem underTasksB_of_active {p : String} (h : isActiveTasks p = true) :
    underTasksB p = true := by
  unfold isActiveTasks at h
  rcases Bool.or_eq_true_iff.mp h with h1 | h2
  · exact underTasksB_of_endsWith_tasks h1
  · have : p = "tasks" := eq_of_beq h2
    rw [this]
    decide

theorem underTasksB_of_endsWith_archive {p : String}
    (h : endsWithS p "/tasks/archive" = true) : underTasksB p = true := by
  unfold endsWithS at h
  obtain ⟨pre, hpre⟩ := (List.isSuffixOf_iff_suffix.mp h)
  unfold underTasksB
  rw [List.elem_iff]
  have hdec : "/tasks/archive".toList = '/' :: ("tasks".toList ++ '/' :: "archive".toList) := by
    decide
  rw [← hpre, hdec, splitOnSep_append, splitOnSep_append]
  exact List.mem_append_right _
    (List.mem_append_left _ (by decide))

theorem archived_not_active {p : String} (h : endsWithS p "/tasks/archive" = true) :
    isActiveTasks p = false := by
  unfold isActiveTasks
  cases hb : endsWithS p "/tasks" with
  | true =>
    exfalso
    unfold endsWithS at h hb
    have h1 := List.isSuffixOf_iff_suffix.mp h
    have h2 := List.isSuffixOf_iff_suffix.mp hb
    rcases List.suffix_or_suffix_of_suffix h2 h1 with hs | hs
    · exact absurd hs (by decide)
    · have := hs.length_le
      simp at this
  | false =>
    cases hpeq : p == "tasks" with
    | true =>
      exfalso
      have : p = "tasks" := eq_of_beq hpeq
      rw [this] at h
      exact absurd h (by decide)
    | false => rfl

/-- C6: for an archival new status with a non-throwing rename, the placement
resolver moves the item into the archive sub-folder of its parent exactly when
the parent is directly an active tasks area, creating that folder when absent;
when already archived it does not act; and an item whose parent path has no
tasks segment never moves, whatever the status. -/
theorem C6_archive_placement :
    (∀ (env : Env) (st : SyncState) (i : Nat) (status : String),
      ARCHIVE_STATUSES.contains status = true → env.moveFails i = false →
      (isActiveTasks (st.items i).parent = true →
        ((placeNote env st i status).st.items i).parent = (st.items i).parent ++ "/archive" ∧
        hasMove (placeNote env st i status).evs = true ∧
        (st.folders.contains ((st.items i).parent ++ "/archive") = false →
          Ev.createFolder ((st.items i).parent ++ "/archive") ∈ (placeNote env st i status).evs)) ∧
      ((isActiveTasks (st.items i).parent = false →
          placeNote env st i status = ⟨st, [], none⟩) ∧
        (endsWithS (st.items i).parent "/tasks/archive" = true →
          placeNote env st i status = ⟨st, [], none⟩))) ∧
    (∀ (env : Env) (st : SyncState) (i : Nat) (status : String),
      underTasksB (st.items i).parent = false →
      placeNote env st i status = ⟨st, [], none⟩) := by
  have harchNop : ∀ (env : Env) (st : SyncState) (i : Nat),
      isActiveTasks (st.items i).parent = false → archiveNote env st i = ⟨st, [], none⟩ := by
    intro env st i hact
    unfold archiveNote
    by_cases hemp : (st.items i).parent = ""
    · simp [hemp]
    · unfold isActiveTasks at hact
      simp only [if_neg hemp, hact]
      simp
  have hunarchNop : ∀ (env : Env) (st : SyncState) (i : Nat),
      endsWithS (st.items i).parent "/tasks/archive" = false →
      unarchiveNote env st i = ⟨st, [], none⟩ := by
    intro env st i harch
    unfold unarchiveNote
    simp [harch]
  constructor
  · intro env st i status hst hmv
    have hplace : placeNote env st i status = archiveNote env st i := by
      unfold placeNote
      rw [if_pos hst]
    constructor
    · intro hact
      have hemp : (st.items i).parent ≠ "" := by
        intro he
        rw [he] at hact
        exact absurd hact (by decide)
      rw [hplace]
      unfold archiveNote
      rw [if_neg hemp]
      unfold isActiveTasks at hact
      simp only [hact, Bool.not_true, Bool.false_eq_true, if_false]
      cases hf : st.folders.contains ((st.items i).parent ++ "/archive") with
      | true =>
        simp only [hf, hmv]
        refine ⟨by simp [setItem], by simp [hasMove], ?_⟩
        intro hcontra
        cases hcontra
      | false =>
        simp only [hf, hmv]
        refine ⟨by simp [setItem], by simp [hasMove], ?_⟩
        intro _
        simp
    · constructor
      · intro hact
        rw [hplace]
        exact harchNop env st i hact
      · intro harch
        rw [hplace]
        exact harchNop env st i (archived_not_active harch)
  · intro env st i status hunder
    have hact : isActiveTasks (st.items i).parent = false := by
      cases hcase : isActiveTasks (st.items i).parent with
      | true => rw [underTasksB_of_active hcase] at hunder; cases hunder
      | false => rfl
    have harch : endsWithS (st.items i).parent "/tasks/archive" = false := by
      cases hcase : endsWithS (st.items i).parent "/tasks/archive" with
      | true => rw [underTasksB_of_endsWith_archive hcase] at hunder; cases hunder
      | false => rfl
    unfold placeNote
    by_cases hst : ARCHIVE_STATUSES.contains status = true
    · rw [if_pos hst]
      exact harchNop env st i hact
    · rw [if_neg hst]
      exact hunarchNop env st i harch

/-- Witness for C6: the concrete note directly in the root tasks folder with
status done moves into tasks/archive, and the note in the unrelated folder
notes does not move on any status. -/
theorem C6_archive_placement_witness :
    (((placeNote envC stTasks 0 "done").st.items 0).parent = "tasks/archive" ∧
      hasMove (placeNote envC stTasks 0 "done").evs = true) ∧
    placeNote envC stPlain 0 "done" = ⟨stPlain, [], none⟩ := by
  refine ⟨?_, (C6_archive_placement.2 envC stPlain 0 "done" (by decide))⟩
  have h := (C6_archive_placement.1 envC stTasks 0 "done" (by decide) (by decide)).1 (by decide)
  exact ⟨h.1, h.2.1⟩



theorem applyFm_statusProp (env : Env) (columnName : String) (fm : String → Option JValue)
    (hsu : env.statusPropertyName ≠ "urgent") (hsi : env.statusPropertyName ≠ "important") :
    applyFm env columnName fm env.statusPropertyName =
      some (JValue.vStr (statusOf columnName)) := by
  unfold applyFm
  cases hQ : QUADRANT_MAP columnName with
  | none => simp
  | some p =>
    cases p
    simp [hsu, hsi]

theorem archiveNote_thrown_of_fail (env : Env) (st : SyncState) (i : Nat)
    (hact : isActiveTasks (st.items i).parent = true) (hmv : env.moveFails i = true) :
    (archiveNote env st i).thrown = some "rename failed" := by
  have hemp : (st.items i).parent ≠ "" := by
    intro he
    rw [he] at hact
    exact absurd hact (by decide)
  unfold archiveNote
  rw [if_neg hemp]
  unfold isActiveTasks at hact
  simp only [hact, Bool.not_true, Bool.false_eq_true, if_false]
  cases hf : st.folders.contains ((st.items i).parent ++ "/archive") <;> simp [hf, hmv]

/-- C7: an exception while updating one item is caught and the remaining pairs
are still processed, and a failing placement move does not undo the metadata
write, which is committed before the move: after the update the item's status
property holds the target status even though the rename threw, the error is
recorded, and the loop equation for the remaining pairs is unchanged. -/
theorem C7_fault_isolation (env : Env) (st : SyncState) (notePath columnName : String)
    (rest : List Pair) (i : Nat)
    (hres : env.resolveLink notePath = some i)
    (hw : env.writeFails i = false)
    (hm : env.moveFails i = true)
    (hn : needsUpdate env (st.items i) columnName = true)
    (hsu : env.statusPropertyName ≠ "urgent")
    (hsi : env.statusPropertyName ≠ "important") :
    (((updateNote env st notePath columnName).1.items i).fm env.statusPropertyName
        = some (JValue.vStr (statusOf columnName))) ∧
    (ARCHIVE_STATUSES.contains (statusOf columnName) = true →
      isActiveTasks (st.items i).parent = true →
      Ev.err "rename failed" ∈ (updateNote env st notePath columnName).2) ∧
    (runPairs env st (⟨notePath, columnName⟩ :: rest) =
      ((runPairs env (updateNote env st notePath columnName).1 rest).1,
        (updateNote env st notePath columnName).2 ++
          (runPairs env (updateNote env st notePath columnName).1 rest).2)) := by
  refine ⟨?_, ?_, rfl⟩
  · rw [updateNote_of_write hres hn hw]
    show ((placeNote env
        (setItem st i { st.items i with fm := applyFm env columnName (st.items i).fm })
        i (statusOf columnName)).st.items i).fm env.statusPropertyName =
      some (JValue.vStr (statusOf columnName))
    rw [congrFun (placeNote_fm env
      (setItem st i { st.items i with fm := applyFm env columnName (st.items i).fm })
      i (statusOf columnName) i) env.statusPropertyName]
    rw [setItem_items_fm]
    simp only [if_pos rfl]
    exact applyFm_statusProp env columnName (st.items i).fm hsu hsi
  · intro harch hact
    rw [updateNote_of_write hres hn hw]
    show Ev.err "rename failed" ∈
      (Ev.write i (statusOf columnName) (QUADRANT_MAP columnName) ::
        ((placeNote env
            (setItem st i { st.items i with fm := applyFm env columnName (st.items i).fm })
            i (statusOf columnName)).evs ++
          (match (placeNote env
              (setItem st i { st.items i with fm := applyFm env columnName (st.items i).fm })
              i (statusOf columnName)).thrown with
            | some e => [Ev.err e] | none => [])))
    have hthrown : (placeNote env
        (setItem st i { st.items i with fm := applyFm env columnName (st.items i).fm })
        i (statusOf columnName)).thrown = some "rename failed" := by
      unfold placeNote
      rw [if_pos harch]
      apply archiveNote_thrown_of_fail env _ i _ hm
      rw [setItem_items_fm]
      simp only [if_pos rfl]
      exact hact
    rw [hthrown]
    simp

/-- Witness for C7: the concrete note in the root tasks folder synced to done
with a failing rename keeps the written status and records the error. -/
theorem C7_fault_isolation_witness :
    ((updateNote envMoveFail stTasks "x" "done").1.items 0).fm "status" =
        some (JValue.vStr "done") ∧
      Ev.err "rename failed" ∈ (updateNote envMoveFail stTasks "x" "done").2 := by
  have h := C7_fault_isolation envMoveFail stTasks "x" "done" [] 0
    (by decide) (by decide) (by decide) (by decide) (by decide) (by decide)
  exact ⟨h.1, h.2.1 (by decide) (by decide)⟩



theorem linkLineCount_cons (l : List Char) (rest : List (List Char)) :
    linkLineCount (l :: rest) =
      (if (findLink l).isSome then 1 else 0) + linkLineCount rest := by
  unfold linkLineCount
  rw [List.filter_cons]
  by_cases hf : (findLink l).isSome = true
  · simp [hf, Nat.add_comm]
  · simp [hf]

theorem parseLines_cons (acc : Option (List Char)) (line : List Char)
    (rest : List (List Char)) :
    parseLines acc (line :: rest) =
      (match headingText? line with
       | some h => parseLines (some h) rest
       | none =>
         match acc with
         | some c =>
           if c.isEmpty then parseLines acc rest
           else
             match findLink line with
             | some cap => ⟨String.mk cap, String.mk c⟩ :: parseLines acc rest
             | none => parseLines acc rest
         | none => parseLines acc rest) := rfl

theorem parseLines_length_le : ∀ (lines : List (List Char)) (acc : Option (List Char)),
    (parseLines acc lines).length ≤ linkLineCount lines := by
  intro lines
  induction lines with
  | nil => intro acc; simp [parseLines, linkLineCount]
  | cons l rest ih =>
    intro acc
    rw [linkLineCount_cons, parseLines_cons]
    cases hh : headingText? l with
    | some h =>
      simp only [hh]
      have := ih (some h)
      omega
    | none =>
      simp only [hh]
      cases acc with
      | none =>
        have := ih none
        simp only []
        omega
      | some c =>
        by_cases hc : c.isEmpty
        · simp only [hc, if_true]
          have := ih (some c)
          omega
        · simp only [hc, Bool.false_eq_true, if_false]
          cases hfl : findLink l with
          | some cap =>
            simp only [hfl, List.length_cons, Option.isSome_some, if_true]
            have := ih (some c)
            omega
          | none =>
            simp only [hfl]
            have := ih (some c)
            omega

theorem emitAt_succ (acc : Option (List Char)) (l : List Char) (rest : List (List Char))
    (j : Nat) :
    emitAt acc (l :: rest) (j + 1) =
      emitAt (match headingText? l with | some h => some h | none => acc) rest j := rfl

theorem emitAt_zero (acc : Option (List Char)) (l : List Char) (rest : List (List Char)) :
    emitAt acc (l :: rest) 0 =
      (match acc with
       | none => none
       | some c =>
         if c.isEmpty then none
         else if (headingText? l).isSome then none
         else match findLink l with
              | some cap => some ⟨String.mk cap, String.mk c⟩
              | none => none) := rfl

theorem specEmit_cons (acc : Option (List Char)) (l : List Char) (rest : List (List Char)) :
    specEmit acc (l :: rest) =
      (match emitAt acc (l :: rest) 0 with
       | none => specEmit (match headingText? l with | some h => some h | none => acc) rest
       | some pr => pr ::
          specEmit (match headingText? l with | some h => some h | none => acc) rest) := by
  unfold specEmit
  rw [List.length_cons, List.range_succ_eq_map, List.filterMap_cons, List.filterMap_map]
  have hcomp : (emitAt acc (l :: rest)) ∘ Nat.succ =
      emitAt (match headingText? l with | some h => some h | none => acc) rest := by
    funext j
    exact emitAt_succ acc l rest j
  rw [hcomp]
  cases emitAt acc (l :: rest) 0 <;> rfl

theorem parseLines_eq_specEmit : ∀ (lines : List (List Char)) (acc : Option (List Char)),
    parseLines acc lines = specEmit acc lines := by
  intro lines
  induction lines with
  | nil => intro acc; simp [parseLines, specEmit]
  | cons l rest ih =>
    intro acc
    rw [specEmit_cons, parseLines_cons, emitAt_zero]
    cases hh : headingText? l with
    | some h =>
      cases acc with
      | none => exact ih (some h)
      | some c =>
        by_cases hc : c.isEmpty
        · simp only [hc, if_pos rfl]
          exact ih (some h)
        · simp only [hc, Bool.false_eq_true, if_false, hh, Option.isSome_some, if_pos rfl]
          exact ih (some h)
    | none =>
      cases acc with
      | none => exact ih none
      | some c =>
        by_cases hc : c.isEmpty
        · simp only [hc, if_pos rfl]
          exact ih (some c)
        · simp only [hc, Bool.false_eq_true, if_false, hh, Option.isSome_none]
          cases hfl : findLink l with
          | some cap => simp only; exact congrArg _ (ih (some c))
          | none => exact ih (some c)

/-- C5: the parser is total, emits at most one pair per link-bearing line (its
first bracketed link), labels every emitted pair with the trimmed text of the
nearest preceding heading line, and ignores lines before the first heading:
the output equals the line-indexed restatement specEmit and its length is
bounded by the number of link-bearing lines. -/
theorem C5_parse_characterisation (content : String) :
    (parseBoardContent content).length ≤ linkLineCount (splitLines content.toList) ∧
    parseBoardContent content = specEmit none (splitLines content.toList) :=
  ⟨parseLines_length_le (splitLines content.toList) none,
    parseLines_eq_specEmit (splitLines content.toList) none⟩


theorem head?_dropWhile_not_ws (p : Char → Bool) :
    ∀ (l : List Char) (c : Char), (l.dropWhile p).head? = some c → p c = false := by
  intro l
  induction l with
  | nil => intro c h; simp [List.dropWhile] at h
  | cons a t ih =>
    intro c h
    rw [List.dropWhile_cons] at h
    by_cases hpa : p a = true
    · rw [if_pos hpa] at h
      exact ih c h
    · rw [if_neg hpa] at h
      simp only [List.head?_cons, Option.some_inj] at h
      rw [← h]
      simpa using hpa

theorem getLast?_dropWhile_ne (p : Char → Bool) :
    ∀ l : List Char, l.dropWhile p ≠ [] → (l.dropWhile p).getLast? = l.getLast? := by
  intro l
  induction l with
  | nil => intro h; simp [List.dropWhile] at h
  | cons a t ih =>
    intro h
    rw [List.dropWhile_cons] at h ⊢
    by_cases hpa : p a = true
    · rw [if_pos hpa] at h ⊢
      cases t with
      | nil => simp [List.dropWhile] at h
      | cons b t2 =>
        rw [List.getLast?_cons_cons]
        exact ih h
    · rw [if_neg hpa]

theorem trimChars_head (cs : List Char) (c : Char) :
    (trimChars cs).head? = some c → jsWs c = false := by
  intro h
  unfold trimChars at h
  rw [List.head?_reverse] at h
  have hne : (cs.dropWhile jsWs).reverse.dropWhile jsWs ≠ [] := by
    intro he
    rw [he] at h
    simp at h
  rw [getLast?_dropWhile_ne jsWs _ hne, List.getLast?_reverse] at h
  exact head?_dropWhile_not_ws jsWs cs c h

theorem trimChars_last (cs : List Char) (c : Char) :
    (trimChars cs).getLast? = some c → jsWs c = false := by
  intro h
  unfold trimChars at h
  rw [List.getLast?_reverse] at h
  exact head?_dropWhile_not_ws jsWs (cs.dropWhile jsWs).reverse c h

theorem headingText?_eq_trim : ∀ (l : List Char) (h : List Char),
    headingText? l = some h → ∃ r, h = trimChars r := by
  intro l h hl
  unfold headingText? at hl
  split at hl
  · split at hl
    · exact ⟨_, (Option.some_inj.mp hl).symm⟩
    · cases hl
  · cases hl

theorem parseLines_columns_trimmed :
    ∀ (lines : List (List Char)) (acc : Option (List Char)),
      (∀ cs, acc = some cs →
        (∀ c, cs.head? = some c → jsWs c = false) ∧
        (∀ c, cs.getLast? = some c → jsWs c = false)) →
      ∀ pr ∈ parseLines acc lines,
        (∀ c, pr.columnName.toList.head? = some c → jsWs c = false) ∧
        (∀ c, pr.columnName.toList.getLast? = some c → jsWs c = false) := by
  intro lines
  induction lines with
  | nil => intro acc _ pr hpr; simp [parseLines] at hpr
  | cons l rest ih =>
    intro acc hacc pr hpr
    rw [parseLines_cons] at hpr
    cases hh : headingText? l with
    | some h =>
      rw [hh] at hpr
      refine ih (some h) ?_ pr hpr
      intro cs hcs
      obtain ⟨r, hr⟩ := headingText?_eq_trim l h hh
      have hch : h = cs := Option.some_inj.mp hcs
      rw [← hch, hr]
      exact ⟨fun c => trimChars_head r c, fun c => trimChars_last r c⟩
    | none =>
      rw [hh] at hpr
      cases acc with
      | none => exact ih none (by intro cs hcs; cases hcs) pr hpr
      | some c =>
        by_cases hc : c.isEmpty
        · simp only [hc, if_true] at hpr
          exact ih (some c) hacc pr hpr
        · simp only [hc, Bool.false_eq_true, if_false] at hpr
          cases hfl : findLink l with
          | some cap =>
            rw [hfl] at hpr
            rcases List.mem_cons.mp hpr with he | hm
            · rw [he]
              exact hacc c rfl
            · exact ih (some c) hacc pr hm
          | none =>
            rw [hfl] at hpr
            exact ih (some c) hacc pr hpr

/-- C10: every column name the parser emits is whitespace-trimmed, with neither
a leading nor a trailing whitespace character; in particular a heading with
surrounding spaces around the word done yields exactly the column done. -/
theorem C10_trimmed_columns :
    (∀ (content : String) (pr : Pair), pr ∈ parseBoardContent content →
      (∀ c, pr.columnName.toList.head? = some c → jsWs c = false) ∧
      (∀ c, pr.columnName.toList.getLast? = some c → jsWs c = false)) ∧
    parseBoardContent "##  done  \n[[x]]" = [⟨"x", "done"⟩] := by
  constructor
  · intro content pr hpr
    exact parseLines_columns_trimmed (splitLines content.toList) none
      (by intro cs hcs; cases hcs) pr hpr
  · decide

/-- Witness for C10 at the concrete board with the padded done heading. -/
theorem C10_trimmed_columns_witness :
    (∀ c, (Pair.mk "x" "done").columnName.toList.head? = some c → jsWs c = false) ∧
    (∀ c, (Pair.mk "x" "done").columnName.toList.getLast? = some c → jsWs c = false) :=
  C10_trimmed_columns.1 "##  done  \n[[x]]" (Pair.mk "x" "done") (by decide)


theorem runPairs_nil (env : Env) (st : SyncState) : runPairs env st [] = (st, []) := rfl

theorem runPairs_cons (env : Env) (st : SyncState) (q : Pair) (rest : List Pair) :
    runPairs env st (q :: rest) =
      ((runPairs env (updateNote env st q.linkPath q.columnName).1 rest).1,
        (updateNote env st q.linkPath q.columnName).2 ++
          (runPairs env (updateNote env st q.linkPath q.columnName).1 rest).2) := rfl

theorem needsUpdate_fm_congr (env : Env) {it1 it2 : ItemState} (h : it1.fm = it2.fm)
    (c : String) : needsUpdate env it1 c = needsUpdate env it2 c := by
  unfold needsUpdate fmRead
  rw [h]

theorem needsUpdate_target_congr (env : Env) (it : ItemState) {c1 c2 : String}
    (hs : statusOf c1 = statusOf c2) (hq : QUADRANT_MAP c1 = QUADRANT_MAP c2) :
    needsUpdate env it c1 = needsUpdate env it c2 := by
  unfold needsUpdate
  rw [hs, hq]

theorem needsUpdate_applyFm (env : Env) (hsu : env.statusPropertyName ≠ "urgent")
    (hsi : env.statusPropertyName ≠ "important") (c : String) (it : ItemState)
    (fm0 : String → Option JValue) (hfm : it.fm = applyFm env c fm0) :
    needsUpdate env it c = false := by
  unfold needsUpdate fmRead
  rw [hfm]
  unfold applyFm
  cases hQ : QUADRANT_MAP c with
  | none => simp
  | some p =>
    cases p with
    | mk u v => simp [hsu, hsi]

theorem settled_update (env : Env) (st : SyncState) (p : Pair) (h : settled env st p) :
    (updateNote env st p.linkPath p.columnName).1 = st ∧
    hasWrite (updateNote env st p.linkPath p.columnName).2 = false ∧
    hasMove (updateNote env st p.linkPath p.columnName).2 = false := by
  cases hres : env.resolveLink p.linkPath with
  | none => rw [updateNote_of_unresolved hres]; exact ⟨rfl, rfl, rfl⟩
  | some i =>
    rcases h i hres with hw | hn
    · cases hn : needsUpdate env (st.items i) p.columnName with
      | true =>
        rw [updateNote_of_writeFail hres hn hw]
        exact ⟨rfl, by simp [hasWrite], by simp [hasMove]⟩
      | false =>
        rw [updateNote_of_noUpdate hres hn]
        exact ⟨rfl, rfl, rfl⟩
    · rw [updateNote_of_noUpdate hres hn]
      exact ⟨rfl, rfl, rfl⟩

theorem updateNote_write_fm (env : Env) (st : SyncState) (notePath columnName : String)
    (i : Nat) (hres : env.resolveLink notePath = some i)
    (hn : needsUpdate env (st.items i) columnName = true)
    (hw : env.writeFails i = false) :
    ((updateNote env st notePath columnName).1.items i).fm =
      applyFm env columnName ((st.items i).fm) := by
  rw [updateNote_of_write hres hn hw]
  show ((placeNote env
      (setItem st i { st.items i with fm := applyFm env columnName (st.items i).fm })
      i (statusOf columnName)).st.items i).fm = _
  rw [placeNote_fm, setItem_items_fm, if_pos rfl]

theorem updateNote_fm_ne (env : Env) (st : SyncState) (notePath columnName : String)
    (j i : Nat) (hres : env.resolveLink notePath = some j) (hij : i ≠ j) :
    ((updateNote env st notePath columnName).1.items i).fm = (st.items i).fm := by
  cases hn : needsUpdate env (st.items j) columnName with
  | false => rw [updateNote_of_noUpdate hres hn]
  | true =>
    cases hw : env.writeFails j with
    | true => rw [updateNote_of_writeFail hres hn hw]
    | false =>
      rw [updateNote_of_write hres hn hw]
      show ((placeNote env
          (setItem st j { st.items j with fm := applyFm env columnName (st.items j).fm })
          j (statusOf columnName)).st.items i).fm = _
      rw [placeNote_fm, setItem_items_fm, if_neg hij]

theorem done_preserved (env : Env) (hsu : env.statusPropertyName ≠ "urgent")
    (hsi : env.statusPropertyName ≠ "important") (st : SyncState) (q : Pair) (i : Nat)
    (c : String)
    (hq : ∀ j, env.resolveLink q.linkPath = some j → j = i → sameTarget q.columnName c)
    (hdone : needsUpdate env (st.items i) c = false) :
    needsUpdate env ((updateNote env st q.linkPath q.columnName).1.items i) c = false := by
  cases hres : env.resolveLink q.linkPath with
  | none => rw [updateNote_of_unresolved hres]; exact hdone
  | some j =>
    by_cases hji : j = i
    · subst hji
      cases hn : needsUpdate env (st.items j) q.columnName with
      | false => rw [updateNote_of_noUpdate hres hn]; exact hdone
      | true =>
        cases hw : env.writeFails j with
        | true => rw [updateNote_of_writeFail hres hn hw]; exact hdone
        | false =>
          have hfm := updateNote_write_fm env st q.linkPath q.columnName j hres hn hw
          have hok := needsUpdate_applyFm env hsu hsi q.columnName _ _ hfm
          obtain ⟨h1, h2⟩ := hq j hres rfl
          rw [← needsUpdate_target_congr env _ h1 h2]
          exact hok
    · have hfm := updateNote_fm_ne env st q.linkPath q.columnName j i hres
        (fun he => hji (he.symm))
      rw [needsUpdate_fm_congr env hfm c]
      exact hdone

theorem done_established (env : Env) (hsu : env.statusPropertyName ≠ "urgent")
    (hsi : env.statusPropertyName ≠ "important") (st : SyncState) (q : Pair) (i : Nat)
    (hres : env.resolveLink q.linkPath = some i) (hw : env.writeFails i = false) :
    needsUpdate env ((updateNote env st q.linkPath q.columnName).1.items i)
      q.columnName = false := by
  cases hn : needsUpdate env (st.items i) q.columnName with
  | false =>
    rw [updateNote_of_noUpdate hres hn]
    exact hn
  | true =>
    have hfm := updateNote_write_fm env st q.linkPath q.columnName i hres hn hw
    exact needsUpdate_applyFm env hsu hsi q.columnName _ _ hfm

theorem runPairs_done (env : Env) (hsu : env.statusPropertyName ≠ "urgent")
    (hsi : env.statusPropertyName ≠ "important") (i : Nat) (c : String)
    (hw : env.writeFails i = false) :
    ∀ (l : List Pair) (st : SyncState),
      (∀ q ∈ l, ∀ j, env.resolveLink q.linkPath = some j → j = i →
        sameTarget q.columnName c) →
      ((∃ q ∈ l, env.resolveLink q.linkPath = some i) ∨
        needsUpdate env (st.items i) c = false) →
      needsUpdate env ((runPairs env st l).1.items i) c = false := by
  intro l
  induction l with
  | nil =>
    intro st _ hex
    rcases hex with ⟨q, hq, _⟩ | h
    · exact absurd hq (List.not_mem_nil q)
    · rw [runPairs_nil]; exact h
  | cons q rest ih =>
    intro st hcompat hex
    rw [runPairs_cons]
    have hcompat2 : ∀ q2 ∈ rest, ∀ j, env.resolveLink q2.linkPath = some j → j = i →
        sameTarget q2.columnName c :=
      fun q2 hq2 => hcompat q2 (List.mem_cons_of_mem q hq2)
    have hqhead : ∀ j, env.resolveLink q.linkPath = some j → j = i →
        sameTarget q.columnName c :=
      hcompat q (List.mem_cons_self q rest)
    rcases hex with ⟨q2, hq2mem, hq2res⟩ | hdone
    · rcases List.mem_cons.mp hq2mem with heq | hmem
      · subst heq
        have hd1 := done_established env hsu hsi st q2 i hq2res hw
        obtain ⟨h1, h2⟩ := hqhead i hq2res rfl
        have hdc : needsUpdate env
            ((updateNote env st q2.linkPath q2.columnName).1.items i) c = false := by
          rw [← needsUpdate_target_congr env _ h1 h2]
          exact hd1
        exact ih _ hcompat2 (Or.inr hdc)
      · exact ih _ hcompat2 (Or.inl ⟨q2, hmem, hq2res⟩)
    · exact ih _ hcompat2
        (Or.inr (done_preserved env hsu hsi st q i c hqhead hdone))

theorem runPairs_settled_noEffect (env : Env) :
    ∀ (l : List Pair) (st : SyncState), (∀ p ∈ l, settled env st p) →
      (runPairs env st l).1 = st ∧ hasWrite (runPairs env st l).2 = false ∧
      hasMove (runPairs env st l).2 = false := by
  intro l
  induction l with
  | nil => intro st _; exact ⟨rfl, rfl, rfl⟩
  | cons p rest ih =>
    intro st h
    obtain ⟨hst1, hw1, hm1⟩ := settled_update env st p (h p (List.mem_cons_self p rest))
    have hrest : ∀ p2 ∈ rest, settled env st p2 :=
      fun p2 hp2 => h p2 (List.mem_cons_of_mem p hp2)
    rw [runPairs_cons, hst1]
    obtain ⟨ha, hb, hc⟩ := ih st hrest
    refine ⟨ha, ?_, ?_⟩
    · rw [hasWrite_append, hw1, hb]
      rfl
    · rw [hasMove_append, hm1, hc]
      rfl


theorem syncBoard_of_empty (env : Env) (st : SyncState) (content : String)
    (h : (parseBoardContent content).length = 0) :
    syncBoard env st content = (st, []) := by
  unfold syncBoard
  rw [if_pos h]

theorem syncBoard_of_nonempty (env : Env) (st : SyncState) (content : String)
    (h : ¬ (parseBoardContent content).length = 0) :
    syncBoard env st content =
      ({ (runPairs env { st with isUpdating := true } (parseBoardContent content)).1 with
          isUpdating := false },
        (runPairs env { st with isUpdating := true } (parseBoardContent content)).2) := by
  unfold syncBoard
  rw [if_neg h]

/-- C1 as stated is false on the code: on the board that links the note x under
the two columns a and b, the second syncBoard run on the unchanged text
performs a metadata write again, because within one run the later pair
overwrites the earlier one and the first pair of the next run is out of date
again. -/
theorem C1_counterexample :
    hasWrite (syncBoard envC (syncBoard envC stPlain boardDup).1 boardDup).2 = true := by
  decide

/-- C1 amended: on a board where any two parsed pairs resolving to the same
item carry the same target state, and with a status property name other than
urgent and important, the second syncBoard run on the unchanged text performs
no metadata write and no file move, for every fault configuration. -/
theorem C1_idempotent_amended (env : Env) (st : SyncState) (content : String)
    (hsu : env.statusPropertyName ≠ "urgent")
    (hsi : env.statusPropertyName ≠ "important")
    (hcompat : ∀ p ∈ parseBoardContent content, ∀ q ∈ parseBoardContent content, ∀ i,
      env.resolveLink p.linkPath = some i → env.resolveLink q.linkPath = some i →
      statusOf p.columnName = statusOf q.columnName ∧
        QUADRANT_MAP p.columnName = QUADRANT_MAP q.columnName) :
    hasWrite (syncBoard env (syncBoard env st content).1 content).2 = false ∧
    hasMove (syncBoard env (syncBoard env st content).1 content).2 = false := by
  by_cases hlen : (parseBoardContent content).length = 0
  · rw [syncBoard_of_empty env _ content hlen]
    exact ⟨rfl, rfl⟩
  · rw [syncBoard_of_nonempty env st content hlen]
    have hsettled : ∀ p ∈ parseBoardContent content,
        settled env
          { (runPairs env { st with isUpdating := true } (parseBoardContent content)).1 with
            isUpdating := false } p := by
      intro p hp i hres
      cases hwf : env.writeFails i with
      | true => exact Or.inl rfl
      | false =>
        refine Or.inr ?_
        show needsUpdate env
          ((runPairs env { st with isUpdating := true } (parseBoardContent content)).1.items i)
          p.columnName = false
        apply runPairs_done env hsu hsi i p.columnName hwf (parseBoardContent content)
          { st with isUpdating := true }
        · intro q hq j hjres hji
          subst hji
          exact hcompat q hq p hp j hjres hres
        · exact Or.inl ⟨p, hp, hres⟩
    rw [syncBoard_of_nonempty env _ content hlen]
    have hsettled2 : ∀ p ∈ parseBoardContent content,
        settled env
          { { (runPairs env { st with isUpdating := true }
                (parseBoardContent content)).1 with isUpdating := false } with
            isUpdating := true } p := hsettled
    obtain ⟨_, hw2, hm2⟩ :=
      runPairs_settled_noEffect env (parseBoardContent content) _ hsettled2
    exact ⟨hw2, hm2⟩

/-- Witness for the amended C1 on the concrete one-column board. -/
theorem C1_idempotent_amended_witness :
    hasWrite (syncBoard envC (syncBoard envC stPlain boardOne).1 boardOne).2 = false ∧
    hasMove (syncBoard envC (syncBoard envC stPlain boardOne).1 boardOne).2 = false := by
  apply C1_idempotent_amended envC stPlain boardOne (by decide) (by decide)
  intro p hp q hq i hpi hqi
  have hparse : parseBoardContent boardOne = [⟨"x", "a"⟩] := by decide
  rw [hparse] at hp hq
  have hp2 := List.mem_singleton.mp hp
  have hq2 := List.mem_singleton.mp hq
  subst hp2
  subst hq2
  exact ⟨rfl, rfl⟩

end KSU
